import Mathlib

/-!
Verification of the EJU quiz application (`src/eju_app/main.py`).

The development shallowly embeds the pure request-handling logic of the
FastAPI variant of the application (the richest of the near-duplicate
versions, the one whose behaviour the design document describes as
normative).  Python strings are modelled as Lean `String`s, with the
string primitives (`str.strip`, `str.split`, `",".join`, `str.upper`,
SQL `lower`/`LIKE`) re-implemented over `List Char` so that every
definition is executable and kernel-reducible.  The SQLite table is
modelled as a list of `Question` records together with the
auto-increment counter.  Python's `round(x, 2)` is modelled over `ℚ`
with round-half-to-even semantics (the idealisation of IEEE rounding of
an exact quotient).
-/

set_option autoImplicit false

namespace EjuApp

/-! ### Python string primitives -/

/-- Whitespace test used by `str.strip`. -/
def isWs (c : Char) : Bool := c.isWhitespace

/-- Remove leading whitespace. -/
def stripL (l : List Char) : List Char := l.dropWhile isWs

/-- Remove trailing whitespace. -/
def stripR (l : List Char) : List Char := (l.reverse.dropWhile isWs).reverse

/-- Python `str.strip()` on a character list. -/
def pyStrip (l : List Char) : List Char := stripR (stripL l)

/-- Python `str.strip()`. -/
def strip (s : String) : String := ⟨pyStrip s.data⟩

/-- One step of `str.split(sep)`: prepend a character to a non-empty
list of pieces. -/
def splitStep (sep : Char) (c : Char) (acc : List (List Char)) : List (List Char) :=
  if c = sep then [] :: acc
  else
    match acc with
    | [] => [[c]]
    | p :: ps => (c :: p) :: ps

/-- Python `str.split(sep)` for a one-character separator: splits on
every occurrence, keeping empty pieces (`"".split(sep) = [""]`). -/
def pySplit (sep : Char) (l : List Char) : List (List Char) :=
  l.foldr (splitStep sep) [[]]

/-- Python `str.upper()` restricted to ASCII (all values this app
compares against are the ASCII letters A–D). -/
def upper (s : String) : String := ⟨s.data.map Char.toUpper⟩

/-- SQLite `lower()`: ASCII-only lowercasing. -/
def sqlLower (s : String) : String := ⟨s.data.map Char.toLower⟩

/-- Code-point lexicographic strict order on character lists, as used by
Python `sorted` on strings. -/
def lexLt : List Char → List Char → Bool
  | [], [] => false
  | [], _ :: _ => true
  | _ :: _, [] => false
  | a :: as, b :: bs =>
      if a.toNat < b.toNat then true
      else if b.toNat < a.toNat then false
      else lexLt as bs

/-- Code-point lexicographic strict order on strings. -/
def strLt (a b : String) : Bool := lexLt a.data b.data

/-- SQL `LIKE` pattern matching on pre-case-folded character lists:
`%` matches any (possibly empty) run of characters and `_` matches
exactly one character; every other pattern character matches itself. -/
def likeMatch : List Char → List Char → Bool
  | [], s => s.isEmpty
  | c :: ps, s =>
      if c = '%' then s.tails.any (fun t => likeMatch ps t)
      else
        match s with
        | [] => false
        | d :: cs => (c == '_' || c == d) && likeMatch ps cs

/-- SQLite `text LIKE pattern`: ASCII-case-insensitive `LIKE`.  The app
always additionally wraps both sides in `lower()` for the tag filter;
for ASCII case-folding the two compositions coincide, so both the tag
condition `lower(tags) LIKE lower(?)` and the plain search conditions
are instances of this function. -/
def likeSql (pat : String) (s : String) : Bool :=
  likeMatch (sqlLower pat).data (sqlLower s).data

/-- The specification's notion of "contains the filter string as a
case-insensitive substring", used to compare the `LIKE`-based filter
against the claim's wording. -/
def containsCI (needle hay : String) : Prop :=
  (sqlLower needle).data <:+: (sqlLower hay).data

instance (needle hay : String) : Decidable (containsCI needle hay) :=
  List.decidableInfix _ _

/-! ### Tag parsing and normalization (`parse_tags`, `normalize_tags_string`) -/

/-- Source `parse_tags`: split a comma-separated tag string into a
cleaned list (split on `,`, strip each piece, drop blanks). -/
def parse_tags (tags_value : String) : List String :=
  if tags_value = "" then []
  else (((pySplit ',' tags_value.data).map pyStrip).filter (fun p => p ≠ [])).map
    (fun p => (⟨p⟩ : String))

/-- The `seen`-set loop inside `normalize_tags_string`: keep the first
occurrence of each tag, in order. -/
def dedupKeepFirst : List String → List String → List String
  | [], _ => []
  | t :: ts, seen =>
      if t ∈ seen then dedupKeepFirst ts seen
      else t :: dedupKeepFirst ts (t :: seen)

/-- Python `sep.join(pieces)` on character lists. -/
def joinPieces (sep : List Char) : List (List Char) → List Char
  | [] => []
  | [a] => a
  | a :: b :: rest => a ++ sep ++ joinPieces sep (b :: rest)

/-- Source `normalize_tags_string`: parse, deduplicate keeping
first-seen order, and rejoin with `", "`. -/
def normalize_tags_string (tags_value : String) : String :=
  ⟨joinPieces [',', ' '] ((dedupKeepFirst (parse_tags tags_value) []).map String.data)⟩

/-! ### Tag tree (`build_tag_tree`, `build_tag_options`) -/

/-- Nested string-keyed mapping, modelling the Python `dict` tree with
its insertion order. -/
inductive TagTree where
  | node (children : List (String × TagTree))

/-- Children of a tree node. -/
def TagTree.children : TagTree → List (String × TagTree)
  | .node cs => cs

/-- Lookup of a child by key, defaulting to an empty node (the read
half of `dict.setdefault(part, dict())`). -/
def getChild (cs : List (String × TagTree)) (k : String) : TagTree :=
  match cs.find? (fun kv => kv.1 == k) with
  | some kv => kv.2
  | none => .node []

/-- Replace the value stored at a key, keeping its position, or append
the key at the end (the write half of `dict.setdefault` followed by
in-place mutation of the returned child). -/
def setChild (cs : List (String × TagTree)) (k : String) (t : TagTree) :
    List (String × TagTree) :=
  match cs with
  | [] => [(k, t)]
  | kv :: rest => if kv.1 == k then (k, t) :: rest else kv :: setChild rest k t

/-- Walk a path of keys down the tree, creating nodes as needed: the
`for part in parts: node = node.setdefault(part, dict())` loop. -/
def insertPath : List String → TagTree → TagTree
  | [], t => t
  | p :: ps, .node cs => .node (setChild cs p (insertPath ps (getChild cs p)))

/-- The per-tag path computation inside `build_tag_tree`:
`[p.strip() for p in tag.split("/") if p.strip()]`. -/
def tagParts (tag : String) : List String :=
  (((pySplit '/' tag.data).map pyStrip).filter (fun p => p ≠ [])).map
    (fun p => (⟨p⟩ : String))

/-- Source `build_tag_tree`: fold every tag's slash path into a nested
tree. -/
def build_tag_tree (tags : List String) : TagTree :=
  tags.foldl (fun tr tag => insertPath (tagParts tag) tr) (.node [])

/-- One entry of the flattened select-option list. -/
structure TagOption where
  value : String
  label : String
  level : Nat
deriving DecidableEq

/-- Insert a keyed subtree into a key-sorted list of keyed subtrees
(code-point order, as Python `sorted`). -/
def insertSortedKV (x : String × TagTree) :
    List (String × TagTree) → List (String × TagTree)
  | [] => [x]
  | y :: ys => if strLt y.1 x.1 then y :: insertSortedKV x ys else x :: y :: ys

/-- Sort children by key, modelling `sorted(node.keys())` (keys of a
tree node are pairwise distinct, so any correct sort agrees with
Python's). -/
def sortKV (l : List (String × TagTree)) : List (String × TagTree) :=
  l.foldr insertSortedKV []

/-- The recursive `walk` inside `build_tag_options`, made structural
with an explicit fuel argument; `build_tag_options` supplies fuel
exceeding the tree depth (`walkFuel_depthLe` below shows any such fuel
gives the same result). -/
def walkFuel : Nat → TagTree → String → Nat → List TagOption
  | 0, _, _, _ => []
  | fuel + 1, .node cs, pre, level =>
      (sortKV cs).flatMap (fun kv =>
        let v : String := if pre = "" then kv.1 else pre ++ "/" ++ kv.1
        { value := v, label := kv.1, level := level } :: walkFuel fuel kv.2 v (level + 1))

/-- Fuel bound used by `build_tag_options`: one more than the total
number of path segments over all tags, which strictly exceeds the tree
depth. -/
def buildFuel (tags : List String) : Nat :=
  tags.foldl (fun n tag => n + (tagParts tag).length) 1

/-- Source `build_tag_options`: build the tree and flatten it
depth-first with lexicographically sorted siblings into
`(value, label, level)` entries. -/
def build_tag_options (tags : List String) : List TagOption :=
  walkFuel (buildFuel tags) (build_tag_tree tags) "" 0

/-- The final slash-segment of a tag path (the specification's
description of an option's label). -/
def lastSeg (s : String) : String := ⟨(pySplit '/' s.data).getLastD []⟩

/-- Well-formedness of a tag tree: every key is a non-empty string with
no `/` in it.  `build_tag_tree` only creates such keys, since each key
is a stripped non-blank piece of a `/`-split. -/
inductive TagTree.WF : TagTree → Prop
  | node {cs : List (String × TagTree)}
      (hkey : ∀ kv ∈ cs, kv.1 ≠ "" ∧ '/' ∉ kv.1.data)
      (hrec : ∀ kv ∈ cs, TagTree.WF kv.2) :
      TagTree.WF (.node cs)

/-- Depth bound on a tag tree, used to show the fuel passed to
`walkFuel` is large enough. -/
inductive DepthLe : TagTree → Nat → Prop
  | node {cs : List (String × TagTree)} {n : Nat}
      (h : ∀ kv ∈ cs, DepthLe kv.2 n) : DepthLe (.node cs) (n + 1)

/-! ### Data model -/

/-- A row of the `questions` table.  The Python `section` column is
called `sect` here because `section` is a Lean keyword. -/
structure Question where
  id : Nat
  question : String
  option_a : String
  option_b : String
  option_c : String
  option_d : String
  correct_option : String
  tags : String
  sect : String
deriving DecidableEq

/-- The question store: table rows plus the `AUTOINCREMENT` counter
(ids are never reused after deletion). -/
structure Store where
  rows : List Question
  nextId : Nat
deriving DecidableEq

/-- HTTP responses the admin handlers produce: a rendered template page
with a status code, or a redirect. -/
inductive Response where
  | page (template : String) (code : Nat)
  | redirect (url : String) (code : Nat)
deriving DecidableEq

/-! ### Quiz listing (`GET /quiz`) -/

/-- The SQL predicate built by the quiz (and admin) listing route:
conjunction of the optional section equality, tag `LIKE` and free-text
search conditions, each skipped when its (stripped) filter is empty. -/
def questionMatches (sectF tagF searchF : String) (q : Question) : Bool :=
  (sectF == "" || q.sect == sectF) &&
  (tagF == "" || likeSql ("%" ++ tagF ++ "%") q.tags) &&
  (searchF == "" ||
    (likeSql ("%" ++ searchF ++ "%") q.question ||
     likeSql ("%" ++ searchF ++ "%") q.option_a ||
     likeSql ("%" ++ searchF ++ "%") q.option_b ||
     likeSql ("%" ++ searchF ++ "%") q.option_c ||
     likeSql ("%" ++ searchF ++ "%") q.option_d ||
     likeSql ("%" ++ searchF ++ "%") q.tags))

/-- Insert a question into a list sorted by ascending id. -/
def insertById (x : Question) : List Question → List Question
  | [] => [x]
  | y :: ys => if y.id < x.id then y :: insertById x ys else x :: y :: ys

/-- Sort rows by ascending id (`ORDER BY id`). -/
def sortById (l : List Question) : List Question := l.foldr insertById []

/-- The question list rendered by `GET /quiz` (identically by
`GET /admin`): filters are stripped, empty filters are skipped, rows
ordered by id. -/
def quiz_list (store : List Question) (tag sect search : String) : List Question :=
  sortById (store.filter (questionMatches (strip sect) (strip tag) (strip search)))

/-! ### Quiz scoring (`POST /quiz`) -/

/-- Assignment `answers[qid] = v` on an association list kept in
insertion order (Python `dict`). -/
def assocSet (k v : String) : List (String × String) → List (String × String)
  | [] => [(k, v)]
  | kv :: rest => if kv.1 == k then (k, v) :: rest else kv :: assocSet k v rest

/-- `answers.get(k)`. -/
def lookupA (l : List (String × String)) (k : String) : Option String :=
  (l.find? (fun kv => kv.1 == k)).map (fun kv => kv.2)

/-- Everything after the first `-`, modelling `key.split("-", 1)[1]`
(only applied to keys known to contain a dash). -/
def afterFirstDash (s : String) : String :=
  ⟨(s.data.dropWhile (fun c => c ≠ '-')).drop 1⟩

/-- The answer-collection loop of `submit_quiz`: over the parsed
URL-encoded body (a key to list-of-values mapping), keep entries whose
key starts with `question-` and has at least one value, keyed by the id
part of the field name. -/
def extractAnswers (parsed : List (String × List String)) : List (String × String) :=
  parsed.foldl (fun acc kv =>
    match kv.2 with
    | [] => acc
    | v :: _ =>
        if "question-".data.isPrefixOf kv.1.data then
          assocSet (afterFirstDash kv.1) v acc
        else acc) []

/-- Python `round` to the nearest integer, half to even, on an exact
rational. -/
def pyRound (q : ℚ) : ℤ :=
  if q - ⌊q⌋ = 1 / 2 then (if ⌊q⌋ % 2 = 0 then ⌊q⌋ else ⌊q⌋ + 1) else round q

/-- Python `round(x, 2)`: round to a multiple of `1/100`, half to
even. -/
def round2 (q : ℚ) : ℚ := (pyRound (q * 100) : ℚ) / 100

/-- Responses of `POST /quiz`: a redirect, or the rendered result page
carrying the graded totals. -/
inductive QuizResponse where
  | redirect (url : String) (code : Nat)
  | results (total : Nat) (correct : Nat) (score : ℚ)

/-- Source `submit_quiz`: collect submitted answers; with no answers
redirect back to the quiz; otherwise locate the submitted ids in the
store (`WHERE id IN (...)`), count matches of the stored
`correct_option` against the submitted letter, and compute the
percentage score rounded to two decimals (`0` when nothing was
located). -/
def submit_quiz (store : List Question) (parsed : List (String × List String)) :
    QuizResponse :=
  let answers := extractAnswers parsed
  if answers = [] then .redirect "/quiz" 303
  else
    let result_set := store.filter (fun q => (answers.map Prod.fst).contains (toString q.id))
    let total := result_set.length
    let correct :=
      (result_set.filter (fun q => lookupA answers (toString q.id) == some q.correct_option)).length
    .results total correct
      (if 0 < total then round2 ((correct : ℚ) / (total : ℚ) * 100) else 0)

/-! ### Admin create / update / delete -/

/-- The normalized field values produced by
`validate_question_payload`. -/
structure Payload where
  question : String
  option_a : String
  option_b : String
  option_c : String
  option_d : String
  correct_option : String
  sect : String
  tags : String
deriving DecidableEq

/-- `data.get(key, "")` on the parsed form dictionary. -/
def getD (data : List (String × String)) (k : String) : String :=
  match data.find? (fun kv => kv.1 == k) with
  | some kv => kv.2
  | none => ""

/-- Source `parse_form_body` (after URL decoding): keep the first value
of each field, stripped; fields with no values become empty strings. -/
def parse_form_body (parsed : List (String × List String)) : List (String × String) :=
  parsed.map (fun kv =>
    (kv.1, match kv.2 with
           | [] => ""
           | v :: _ => strip v))

/-- The valid correct-option letters, as in `CORRECT_OPTION_CHOICES`. -/
def correctOptionChoices : List String := ["A", "B", "C", "D"]

/-- Source `validate_question_payload`: strip all fields, uppercase the
correct option, normalize the tags, and collect the validation error
messages. -/
def validate_question_payload (data : List (String × String)) :
    List String × Payload :=
  let question := strip (getD data "question")
  let option_a := strip (getD data "option_a")
  let option_b := strip (getD data "option_b")
  let option_c := strip (getD data "option_c")
  let option_d := strip (getD data "option_d")
  let correct_option := upper (strip (getD data "correct_option"))
  let sect := strip (getD data "section")
  let tags := getD data "tags"
  let errors :=
    (if question = "" then ["题目内容不能为空。"] else []) ++
    (if option_a = "" ∨ option_b = "" ∨ option_c = "" ∨ option_d = "" then
      ["请填写四个选项内容。"] else []) ++
    (if correct_option ∉ correctOptionChoices then ["请选择正确答案。"] else []) ++
    (if sect = "" then ["请选择题目所属的板块。"] else [])
  (errors,
   { question := question, option_a := option_a, option_b := option_b,
     option_c := option_c, option_d := option_d,
     correct_option := correct_option, sect := sect,
     tags := normalize_tags_string tags })

/-- Source `add_question_post`: on validation failure re-render the
form with status 400 and leave the table unchanged; on success insert
the normalized payload with a fresh id and redirect with a success
message. -/
def add_question_post (store : Store) (parsed : List (String × List String)) :
    Store × Response :=
  let ep := validate_question_payload (parse_form_body parsed)
  if ep.1 = [] then
    ({ rows := store.rows ++
        [{ id := store.nextId, question := ep.2.question,
           option_a := ep.2.option_a, option_b := ep.2.option_b,
           option_c := ep.2.option_c, option_d := ep.2.option_d,
           correct_option := ep.2.correct_option, tags := ep.2.tags,
           sect := ep.2.sect }],
       nextId := store.nextId + 1 },
     .redirect "/admin?msg=题目已添加&category=success" 303)
  else (store, .page "add_edit.html" 400)

/-- Source `edit_question_post`: on validation failure re-render the
form with status 400 and leave the table unchanged; on success update
the row with the given id in place (`UPDATE ... WHERE id=?`, a no-op
when the id is absent) and redirect with a success message. -/
def edit_question_post (store : Store) (qid : Nat)
    (parsed : List (String × List String)) : Store × Response :=
  let ep := validate_question_payload (parse_form_body parsed)
  if ep.1 = [] then
    ({ store with rows := store.rows.map (fun q =>
        if q.id == qid then
          { q with question := ep.2.question, option_a := ep.2.option_a,
                   option_b := ep.2.option_b, option_c := ep.2.option_c,
                   option_d := ep.2.option_d,
                   correct_option := ep.2.correct_option,
                   tags := ep.2.tags, sect := ep.2.sect }
        else q) },
     .redirect "/admin?msg=题目已更新&category=success" 303)
  else (store, .page "add_edit.html" 400)

/-- Source `delete_question`: `DELETE FROM questions WHERE id=?`, then
an unconditional success redirect. -/
def delete_question (store : Store) (qid : Nat) : Store × Response :=
  ({ store with rows := store.rows.filter (fun q => q.id != qid) },
   .redirect "/admin?msg=题目已删除&category=success" 303)

/-- `SELECT * FROM questions WHERE id=?` (first matching row). -/
def get_question (store : Store) (qid : Nat) : Option Question :=
  store.rows.find? (fun q => q.id == qid)

end EjuApp

namespace EjuApp

/-! ### Toolbox: `strip` -/

theorem stripL_cons_of_ws {c : Char} (hc : isWs c = true) (l : List Char) :
    stripL (c :: l) = stripL l := by
  simp [stripL, List.dropWhile_cons, hc]

theorem dropWhile_dropWhile (p : Char → Bool) (l : List Char) :
    (l.dropWhile p).dropWhile p = l.dropWhile p := by
  induction l with
  | nil => rfl
  | cons c t ih =>
      cases hp : p c with
      | true => simpa [List.dropWhile_cons, hp] using ih
      | false => simp [List.dropWhile_cons, hp]

theorem dropWhile_eq_cons_head_false {p : Char → Bool} {y z : List Char} {a : Char}
    (h : y.dropWhile p = a :: z) : p a = false := by
  induction y with
  | nil => simp at h
  | cons b t ih =>
      rw [List.dropWhile_cons] at h
      split at h
      · exact ih h
      · rename_i hpb
        cases h
        simpa using hpb

theorem dropWhile_eq_self_of_prefix {p : Char → Bool} {x y : List Char}
    (h : x <+: y.dropWhile p) : x.dropWhile p = x := by
  cases hx : x with
  | nil => rfl
  | cons a t =>
      subst hx
      obtain ⟨r, hr⟩ := h
      have hr2 : y.dropWhile p = a :: (t ++ r) := by
        rw [← hr]
        rfl
      have ha : p a = false := dropWhile_eq_cons_head_false hr2
      simp [List.dropWhile_cons, ha]

theorem stripR_append_of_ws {c : Char} (hc : isWs c = true) (l : List Char) :
    stripR (l ++ [c]) = stripR l := by
  simp [stripR, List.reverse_append, List.dropWhile_cons, hc]

theorem stripR_stripR (l : List Char) : stripR (stripR l) = stripR l := by
  simp [stripR, List.reverse_reverse, dropWhile_dropWhile]

theorem pyStrip_cons_of_ws {c : Char} (hc : isWs c = true) (l : List Char) :
    pyStrip (c :: l) = pyStrip l := by
  simp [pyStrip, stripL_cons_of_ws hc]

theorem pyStrip_append_of_ws {c : Char} (hc : isWs c = true) (l : List Char) :
    pyStrip (l ++ [c]) = pyStrip l := by
  unfold pyStrip
  by_cases hnil : stripL l = []
  · have h1 : stripL (l ++ [c]) = [] := by
      have hall : ∀ x ∈ l, isWs x = true := List.dropWhile_eq_nil_iff.mp hnil
      apply List.dropWhile_eq_nil_iff.mpr
      intro x hx
      rcases List.mem_append.mp hx with h | h
      · exact hall x h
      · simp at h
        subst h
        exact hc
    rw [h1, hnil]
  · have h1 : stripL (l ++ [c]) = stripL l ++ [c] := by
      unfold stripL at hnil ⊢
      rw [List.dropWhile_append, if_neg (fun h => hnil (List.isEmpty_iff.mp h))]
    rw [h1, stripR_append_of_ws hc]

theorem stripL_prefix_fix {x l : List Char} (h : x <+: stripL l) : stripL x = x :=
  dropWhile_eq_self_of_prefix h

theorem stripR_prefix_of (l : List Char) : stripR l <+: l := by
  have h : l.reverse.dropWhile isWs <:+ l.reverse := List.dropWhile_suffix isWs
  have h2 := List.reverse_prefix.mpr h
  simpa [stripR] using h2

theorem pyStrip_pyStrip (l : List Char) : pyStrip (pyStrip l) = pyStrip l := by
  unfold pyStrip
  have h1 : stripL (stripR (stripL l)) = stripR (stripL l) :=
    stripL_prefix_fix (stripR_prefix_of (stripL l))
  rw [h1, stripR_stripR]

theorem pyStrip_subset (l : List Char) : pyStrip l ⊆ l := by
  intro a ha
  simp only [pyStrip, stripR, stripL] at ha
  rw [List.mem_reverse] at ha
  have hsub1 : ((l.dropWhile isWs).reverse.dropWhile isWs).Sublist
      (l.dropWhile isWs).reverse := List.dropWhile_sublist isWs
  have h1 := hsub1.subset ha
  rw [List.mem_reverse] at h1
  have hsub2 : (l.dropWhile isWs).Sublist l := List.dropWhile_sublist isWs
  exact hsub2.subset h1

theorem pyStrip_eq_nil_iff (l : List Char) :
    pyStrip l = [] ↔ ∀ c ∈ l, isWs c = true := by
  constructor
  · intro h c hc
    have h2 : (stripL l).reverse.dropWhile isWs = [] := by
      have h3 : ((stripL l).reverse.dropWhile isWs).reverse = [] := h
      simpa using congrArg List.reverse h3
    have hall : ∀ x ∈ (stripL l).reverse, isWs x = true := List.dropWhile_eq_nil_iff.mp h2
    have hallL : ∀ x ∈ stripL l, isWs x = true := fun x hx => hall x (List.mem_reverse.mpr hx)
    rcases List.mem_append.mp
        (by rw [List.takeWhile_append_dropWhile isWs l]; exact hc :
          c ∈ l.takeWhile isWs ++ l.dropWhile isWs) with h3 | h3
    · exact List.mem_takeWhile_imp h3
    · exact hallL c h3
  · intro h
    have h4 : stripL l = [] := List.dropWhile_eq_nil_iff.mpr h
    simp [pyStrip, h4, stripR]

/-! ### Toolbox: `split` -/

theorem splitStep_ne_nil (sep c : Char) (acc : List (List Char)) :
    splitStep sep c acc ≠ [] := by
  unfold splitStep
  split
  · simp
  · cases acc <;> simp

theorem foldr_splitStep_ne_nil (sep : Char) (l : List Char)
    {init : List (List Char)} (h : init ≠ []) :
    l.foldr (splitStep sep) init ≠ [] := by
  cases l with
  | nil => exact h
  | cons c t => exact splitStep_ne_nil sep c _

theorem pySplit_ne_nil (sep : Char) (l : List Char) : pySplit sep l ≠ [] :=
  foldr_splitStep_ne_nil sep l (by simp)

theorem foldr_splitStep_cons (sep : Char) (p : List Char) (ps : List (List Char))
    (l : List Char) :
    l.foldr (splitStep sep) (p :: ps) = l.foldr (splitStep sep) [p] ++ ps := by
  induction l with
  | nil => rfl
  | cons c t ih =>
      rw [List.foldr_cons, List.foldr_cons, ih]
      rcases h : t.foldr (splitStep sep) [p] with _ | ⟨q, qs⟩
      · exact absurd h (foldr_splitStep_ne_nil sep t (by simp))
      · by_cases hc : c = sep
        · simp [splitStep, hc]
        · simp [splitStep, hc]

theorem pySplit_append_sep (sep : Char) (l r : List Char) :
    pySplit sep (l ++ sep :: r) = pySplit sep l ++ pySplit sep r := by
  unfold pySplit
  rw [List.foldr_append, List.foldr_cons]
  have h1 : splitStep sep sep (r.foldr (splitStep sep) [[]]) =
      [] :: r.foldr (splitStep sep) [[]] := by
    simp [splitStep]
  rw [h1, foldr_splitStep_cons]

theorem mem_mem_pySplit {sep : Char} {l p : List Char} {c : Char}
    (hp : p ∈ pySplit sep l) (hc : c ∈ p) : c ∈ l := by
  induction l generalizing p with
  | nil =>
      simp [pySplit] at hp
      subst hp
      simp at hc
  | cons a t ih =>
      have hstep : pySplit sep (a :: t) = splitStep sep a (pySplit sep t) := rfl
      rw [hstep] at hp
      unfold splitStep at hp
      split at hp
      · rcases List.mem_cons.mp hp with h | h
        · subst h
          simp at hc
        · exact List.mem_cons_of_mem a (ih h hc)
      · rcases hq : pySplit sep t with _ | ⟨q, qs⟩
        · exact absurd hq (pySplit_ne_nil sep t)
        · rw [hq] at hp
          have hqmem : q ∈ pySplit sep t := by
            rw [hq]
            exact List.mem_cons_self q qs
          rcases List.mem_cons.mp hp with h | h
          · subst h
            rcases List.mem_cons.mp hc with h2 | h2
            · exact List.mem_cons.mpr (Or.inl h2)
            · exact List.mem_cons_of_mem a (ih hqmem h2)
          · have hmem : p ∈ pySplit sep t := by
              rw [hq]
              exact List.mem_cons_of_mem q h
            exact List.mem_cons_of_mem a (ih hmem hc)

theorem piece_no_sep {sep : Char} {l p : List Char}
    (hp : p ∈ pySplit sep l) : sep ∉ p := by
  intro hmem
  induction l generalizing p with
  | nil =>
      simp [pySplit] at hp
      subst hp
      simp at hmem
  | cons a t ih =>
      have hstep : pySplit sep (a :: t) = splitStep sep a (pySplit sep t) := rfl
      rw [hstep] at hp
      unfold splitStep at hp
      split at hp
      · rcases List.mem_cons.mp hp with h | h
        · subst h
          simp at hmem
        · exact ih h hmem
      · rcases hq : pySplit sep t with _ | ⟨q, qs⟩
        · exact absurd hq (pySplit_ne_nil sep t)
        · rw [hq] at hp
          rename_i hne
          have hqmem : q ∈ pySplit sep t := by
            rw [hq]
            exact List.mem_cons_self q qs
          rcases List.mem_cons.mp hp with h | h
          · subst h
            rcases List.mem_cons.mp hmem with h2 | h2
            · exact hne h2.symm
            · exact ih hqmem h2
          · have hmem2 : p ∈ pySplit sep t := by
              rw [hq]
              exact List.mem_cons_of_mem q h
            exact ih hmem2 hmem

theorem pySplit_no_sep {sep : Char} {l : List Char} (h : sep ∉ l) :
    pySplit sep l = [l] := by
  induction l with
  | nil => rfl
  | cons a t ih =>
      have ha : a ≠ sep := fun he => h (he ▸ List.mem_cons_self a t)
      have ht : sep ∉ t := fun hm => h (List.mem_cons_of_mem a hm)
      have hstep : pySplit sep (a :: t) = splitStep sep a (pySplit sep t) := rfl
      rw [hstep, ih ht]
      simp [splitStep, ha]

theorem getLastD_indep (x y : List Char) (a : List Char) (ys : List (List Char)) :
    ((a :: ys).getLastD x) = ((a :: ys).getLastD y) := by
  simp only [List.getLastD_cons]

theorem dropLast_append_getLastD {R : List (List Char)} (h : R ≠ []) :
    R.dropLast ++ [R.getLastD []] = R := by
  induction R with
  | nil => exact absurd rfl h
  | cons x xs ih =>
      cases xs with
      | nil => rfl
      | cons y ys =>
          have h2 := ih (by simp)
          have h3 : (x :: y :: ys).getLastD [] = (y :: ys).getLastD [] := by
            simp only [List.getLastD_cons]
          have h4 : (x :: y :: ys).dropLast = x :: (y :: ys).dropLast := rfl
          rw [h3, h4, List.cons_append, h2]

theorem foldr_splitStep_init (sep : Char) (q : List Char) (l : List Char) :
    l.foldr (splitStep sep) [q] =
      (pySplit sep l).dropLast ++ [(pySplit sep l).getLastD [] ++ q] := by
  induction l with
  | nil => simp [pySplit]
  | cons c t ih =>
      have hstep : pySplit sep (c :: t) = splitStep sep c (pySplit sep t) := rfl
      rw [List.foldr_cons, ih, hstep]
      rcases hR : pySplit sep t with _ | ⟨x, xs⟩
      · exact absurd hR (pySplit_ne_nil sep t)
      · cases xs with
        | nil =>
            by_cases hc : c = sep
            · simp [splitStep, hc]
            · simp [splitStep, hc]
        | cons y ys =>
            by_cases hc : c = sep
            · simp [splitStep, hc, List.getLastD_cons, List.dropLast]
            · simp [splitStep, hc, List.getLastD_cons, List.dropLast]

theorem mapStrip_append_of_ws {sep c : Char} (hc : isWs c = true) (hcs : c ≠ sep)
    (l : List Char) :
    (pySplit sep (l ++ [c])).map pyStrip = (pySplit sep l).map pyStrip := by
  have h1 : pySplit sep (l ++ [c]) = l.foldr (splitStep sep) [[c]] := by
    unfold pySplit
    rw [List.foldr_append]
    simp [splitStep, hcs]
  rw [h1, foldr_splitStep_init]
  rw [List.map_append]
  have h2 : pyStrip ((pySplit sep l).getLastD [] ++ [c]) =
      pyStrip ((pySplit sep l).getLastD []) := pyStrip_append_of_ws hc _
  simp only [List.map_cons, List.map_nil, h2]
  conv_rhs => rw [← dropLast_append_getLastD (pySplit_ne_nil sep l)]
  rw [List.map_append]
  simp

theorem mapStrip_cons_of_ws {sep c : Char} (hc : isWs c = true) (hcs : c ≠ sep)
    (l : List Char) :
    (pySplit sep (c :: l)).map pyStrip = (pySplit sep l).map pyStrip := by
  have hstep : pySplit sep (c :: l) = splitStep sep c (pySplit sep l) := rfl
  rw [hstep]
  rcases hR : pySplit sep l with _ | ⟨x, xs⟩
  · exact absurd hR (pySplit_ne_nil sep l)
  · simp [splitStep, hcs, pyStrip_cons_of_ws hc]

theorem mapStrip_stripL {sep : Char} (hsep : isWs sep = false) (l : List Char) :
    (pySplit sep (stripL l)).map pyStrip = (pySplit sep l).map pyStrip := by
  induction l with
  | nil => rfl
  | cons c t ih =>
      cases hc : isWs c with
      | false => simp [stripL, List.dropWhile_cons, hc]
      | true =>
          have hcs : c ≠ sep := by
            intro h
            rw [h, hsep] at hc
            exact Bool.noConfusion hc
          rw [stripL_cons_of_ws hc, ih, mapStrip_cons_of_ws hc hcs]

theorem mapStrip_stripR {sep : Char} (hsep : isWs sep = false) (l : List Char) :
    (pySplit sep (stripR l)).map pyStrip = (pySplit sep l).map pyStrip := by
  induction l using List.reverseRecOn with
  | nil => rfl
  | append_singleton t c ih =>
      cases hc : isWs c with
      | false =>
          have h1 : stripR (t ++ [c]) = t ++ [c] := by
            simp [stripR, List.reverse_append, List.dropWhile_cons, hc]
          rw [h1]
      | true =>
          have hcs : c ≠ sep := by
            intro h
            rw [h, hsep] at hc
            exact Bool.noConfusion hc
          rw [stripR_append_of_ws hc, ih, mapStrip_append_of_ws hc hcs]

theorem mapStrip_pyStrip {sep : Char} (hsep : isWs sep = false) (l : List Char) :
    (pySplit sep (pyStrip l)).map pyStrip = (pySplit sep l).map pyStrip := by
  have h : pyStrip l = stripR (stripL l) := rfl
  rw [h, mapStrip_stripR hsep, mapStrip_stripL hsep]

/-! ### Toolbox: `parse_tags` and `normalize_tags_string` -/

theorem comma_not_ws : isWs ',' = false := by decide

theorem mk_ne_empty {l : List Char} (h : l ≠ []) : (⟨l⟩ : String) ≠ "" :=
  fun hc => h (congrArg String.data hc)

theorem parse_tags_strip (s : String) : parse_tags (strip s) = parse_tags s := by
  by_cases hs : s = ""
  · subst hs
    rfl
  · by_cases hss : strip s = ""
    · have hnil : pyStrip s.data = [] := congrArg String.data hss
      have hall : ∀ c ∈ s.data, isWs c = true := (pyStrip_eq_nil_iff s.data).mp hnil
      have hfilter :
          ((pySplit ',' s.data).map pyStrip).filter (fun p => p ≠ []) = [] := by
        apply List.filter_eq_nil_iff.mpr
        intro p hp
        obtain ⟨q, hq, hpq⟩ := List.mem_map.mp hp
        have hq0 : pyStrip q = [] := by
          apply (pyStrip_eq_nil_iff q).mpr
          intro c hc
          exact hall c (mem_mem_pySplit hq hc)
        simp [← hpq, hq0]
      have hrhs : parse_tags s = [] := by
        rw [parse_tags, if_neg hs, hfilter]
        rfl
      rw [hss, hrhs]
      simp [parse_tags]
    · rw [parse_tags, parse_tags, if_neg hs, if_neg hss]
      have hdata : (strip s).data = pyStrip s.data := rfl
      rw [hdata, mapStrip_pyStrip comma_not_ws]

theorem parse_tags_facts {s : String} {a : String} (ha : a ∈ parse_tags s) :
    a.data ≠ [] ∧ ',' ∉ a.data ∧ pyStrip a.data = a.data := by
  rw [parse_tags] at ha
  split at ha
  · simp at ha
  · obtain ⟨p, hp, hpa⟩ := List.mem_map.mp ha
    obtain ⟨hpmem, hpne⟩ := List.mem_filter.mp hp
    obtain ⟨q, hq, hpq⟩ := List.mem_map.mp hpmem
    have hadata : a.data = p := by rw [← hpa]
    refine ⟨?_, ?_, ?_⟩
    · rw [hadata]
      simpa using hpne
    · rw [hadata, ← hpq]
      intro hmem
      exact piece_no_sep hq (pyStrip_subset q hmem)
    · rw [hadata, ← hpq, pyStrip_pyStrip]

theorem dedup_subset {l seen : List String} {x : String}
    (h : x ∈ dedupKeepFirst l seen) : x ∈ l := by
  induction l generalizing seen with
  | nil => simp [dedupKeepFirst] at h
  | cons t ts ih =>
      rw [dedupKeepFirst] at h
      split at h
      · exact List.mem_cons_of_mem t (ih h)
      · rcases List.mem_cons.mp h with h2 | h2
        · exact h2 ▸ List.mem_cons_self t ts
        · exact List.mem_cons_of_mem t (ih h2)

theorem dedup_not_mem_seen {l seen : List String} {x : String}
    (h : x ∈ dedupKeepFirst l seen) : x ∉ seen := by
  induction l generalizing seen with
  | nil => simp [dedupKeepFirst] at h
  | cons t ts ih =>
      rw [dedupKeepFirst] at h
      split at h
      · exact ih h
      · rename_i hts
        rcases List.mem_cons.mp h with h2 | h2
        · exact h2 ▸ hts
        · intro hmem
          exact ih h2 (List.mem_cons_of_mem t hmem)

theorem dedup_nodup (l : List String) (seen : List String) :
    (dedupKeepFirst l seen).Nodup := by
  induction l generalizing seen with
  | nil => simp [dedupKeepFirst]
  | cons t ts ih =>
      rw [dedupKeepFirst]
      split
      · exact ih seen
      · refine List.nodup_cons.mpr ⟨?_, ih (t :: seen)⟩
        intro hmem
        exact dedup_not_mem_seen hmem (List.mem_cons_self t seen)

theorem dedup_id_of_nodup {l : List String} (hl : l.Nodup) {seen : List String}
    (hd : ∀ x ∈ l, x ∉ seen) : dedupKeepFirst l seen = l := by
  induction l generalizing seen with
  | nil => rfl
  | cons t ts ih =>
      rw [dedupKeepFirst, if_neg (hd t (List.mem_cons_self t ts))]
      congr 1
      apply ih (List.nodup_cons.mp hl).2
      intro x hx
      intro hmem
      rcases List.mem_cons.mp hmem with h2 | h2
      · exact (List.nodup_cons.mp hl).1 (h2 ▸ hx)
      · exact hd x (List.mem_cons_of_mem t hx) h2

theorem joinPieces_cons (sep : List Char) (x : List Char) (xs : List (List Char)) :
    joinPieces sep (x :: xs) =
      x ++ (if xs = [] then [] else sep ++ joinPieces sep xs) := by
  cases xs with
  | nil => simp [joinPieces]
  | cons y ys => simp [joinPieces]

theorem parse_tags_join (L : List String)
    (h : ∀ a ∈ L, a.data ≠ [] ∧ ',' ∉ a.data ∧ pyStrip a.data = a.data) :
    parse_tags ⟨joinPieces [',', ' '] (L.map String.data)⟩ = L := by
  induction L with
  | nil => rfl
  | cons a rest ih =>
      obtain ⟨hane, hacomma, hastrip⟩ := h a (List.mem_cons_self a rest)
      cases rest with
      | nil =>
          have hne : (⟨joinPieces [',', ' '] ([a].map String.data)⟩ : String) ≠ "" :=
            mk_ne_empty (by simpa [joinPieces] using hane)
          rw [parse_tags, if_neg hne]
          have hdata : (⟨joinPieces [',', ' '] ([a].map String.data)⟩ : String).data
              = a.data := by simp [joinPieces]
          rw [hdata, pySplit_no_sep hacomma]
          simp [hastrip, hane]
      | cons b rs =>
          have hJfacts := fun x hx => h x (List.mem_cons_of_mem a hx)
          have ihr := ih hJfacts
          have hbne : b.data ≠ [] := (hJfacts b (List.mem_cons_self b rs)).1
          have hJne : joinPieces [',', ' '] ((b :: rs).map String.data) ≠ [] := by
            rw [List.map_cons, joinPieces_cons]
            intro hcon
            exact hbne (List.append_eq_nil.mp hcon).1
          have hJoin :
              joinPieces [',', ' '] ((a :: b :: rs).map String.data) =
                a.data ++ ',' ::
                  (' ' :: joinPieces [',', ' '] ((b :: rs).map String.data)) := by
            simp [joinPieces]
          have hfullne :
              (⟨joinPieces [',', ' '] ((a :: b :: rs).map String.data)⟩ : String) ≠ "" := by
            apply mk_ne_empty
            rw [hJoin]
            intro hcon
            exact hane (List.append_eq_nil.mp hcon).1
          rw [parse_tags, if_neg hfullne]
          have hdata : (⟨joinPieces [',', ' '] ((a :: b :: rs).map String.data)⟩ : String).data
              = a.data ++ ',' ::
                  (' ' :: joinPieces [',', ' '] ((b :: rs).map String.data)) := hJoin
          rw [hdata, pySplit_append_sep, pySplit_no_sep hacomma]
          rw [List.map_append, List.filter_append, List.map_append]
          have hsp : isWs ' ' = true := by decide
          have hspc : (' ' : Char) ≠ ',' := by decide
          have hcons : (pySplit ',' (' ' :: joinPieces [',', ' ']
                ((b :: rs).map String.data))).map pyStrip =
              (pySplit ',' (joinPieces [',', ' ']
                ((b :: rs).map String.data))).map pyStrip :=
            mapStrip_cons_of_ws hsp hspc
              (joinPieces [',', ' '] ((b :: rs).map String.data))
          rw [hcons]
          have hihne : (⟨joinPieces [',', ' '] ((b :: rs).map String.data)⟩ : String) ≠ "" :=
            mk_ne_empty hJne
          rw [parse_tags, if_neg hihne] at ihr
          have hJdata : (⟨joinPieces [',', ' '] ((b :: rs).map String.data)⟩ : String).data
              = joinPieces [',', ' '] ((b :: rs).map String.data) := rfl
          rw [hJdata] at ihr
          rw [ihr]
          simp [hastrip, hane]

theorem normalize_tags_string_strip (s : String) :
    normalize_tags_string (strip s) = normalize_tags_string s := by
  unfold normalize_tags_string
  rw [parse_tags_strip]

/-- Claim C9: `normalize_tags_string` is idempotent: normalizing an
already-normalized tag string changes nothing. -/
theorem eju_C9 (s : String) :
    normalize_tags_string (normalize_tags_string s) = normalize_tags_string s := by
  have hfacts : ∀ a ∈ dedupKeepFirst (parse_tags s) [],
      a.data ≠ [] ∧ ',' ∉ a.data ∧ pyStrip a.data = a.data :=
    fun a ha => parse_tags_facts (dedup_subset ha)
  have hparse : parse_tags (normalize_tags_string s) = dedupKeepFirst (parse_tags s) [] :=
    parse_tags_join _ hfacts
  rw [normalize_tags_string, hparse,
    dedup_id_of_nodup (dedup_nodup (parse_tags s) []) (fun x _ => List.not_mem_nil x)]
  rfl

/-! ### Claims C6, C7, C8 -/

/-- Claim C6: for the tag list parsed from `"数学/代数, 数学/几何, 日语"`,
`build_tag_tree` returns the nested mapping with top-level keys 数学
(children 代数, 几何) and 日语, and `build_tag_options` returns exactly
4 entries in depth-first order with lexicographically sorted siblings,
whose levels are `[0, 1, 1, 0]`. -/
theorem eju_C6 :
    build_tag_tree (parse_tags "数学/代数, 数学/几何, 日语") =
      .node [("数学", .node [("代数", .node []), ("几何", .node [])]),
             ("日语", .node [])] ∧
    build_tag_options (parse_tags "数学/代数, 数学/几何, 日语") =
      [⟨"数学", "数学", 0⟩, ⟨"数学/代数", "代数", 1⟩,
       ⟨"数学/几何", "几何", 1⟩, ⟨"日语", "日语", 0⟩] ∧
    (build_tag_options (parse_tags "数学/代数, 数学/几何, 日语")).length = 4 ∧
    (build_tag_options (parse_tags "数学/代数, 数学/几何, 日语")).map TagOption.level =
      [0, 1, 1, 0] :=
  ⟨rfl, by decide, by decide, by decide⟩

/-- Claim C7: a quiz submission containing zero answered questions (no
form field named `question-<id>` with a value) is answered by a redirect
back to the quiz listing, not a scored result. -/
theorem eju_C7 (store : List Question) (parsed : List (String × List String))
    (h : extractAnswers parsed = []) :
    submit_quiz store parsed = .redirect "/quiz" 303 := by
  simp [submit_quiz, h]

/-- Witness for C7 at a concrete empty submission. -/
theorem eju_C7_witness :
    extractAnswers [("search", ["x"]), ("question-", [])] = [] ∧
    submit_quiz [] [("search", ["x"]), ("question-", [])] = .redirect "/quiz" 303 :=
  ⟨by decide, eju_C7 [] [("search", ["x"]), ("question-", [])] (by decide)⟩

/-- Claim C8: deleting an absent id leaves the store unchanged, and the
delete handler always responds with the same success-style redirect to
the list view, so a no-op delete is indistinguishable from a real one. -/
theorem eju_C8 (store : Store) (qid : Nat) :
    ((∀ q ∈ store.rows, q.id ≠ qid) → (delete_question store qid).1 = store) ∧
    (delete_question store qid).2 =
      .redirect "/admin?msg=题目已删除&category=success" 303 := by
  constructor
  · intro h
    have hfilter : store.rows.filter (fun q => q.id != qid) = store.rows := by
      apply List.filter_eq_self.mpr
      intro q hq
      simpa using h q hq
    simp [delete_question, hfilter]
  · rfl

/-- Witness for C8 at a concrete store and an absent id. -/
theorem eju_C8_witness :
    (delete_question
        ⟨[⟨1, "q", "a", "b", "c", "d", "A", "", "理科"⟩], 2⟩ 5).1 =
      ⟨[⟨1, "q", "a", "b", "c", "d", "A", "", "理科"⟩], 2⟩ ∧
    (delete_question
        ⟨[⟨1, "q", "a", "b", "c", "d", "A", "", "理科"⟩], 2⟩ 5).2 =
      .redirect "/admin?msg=题目已删除&category=success" 303 :=
  ⟨(eju_C8 ⟨[⟨1, "q", "a", "b", "c", "d", "A", "", "理科"⟩], 2⟩ 5).1 (by decide),
   (eju_C8 ⟨[⟨1, "q", "a", "b", "c", "d", "A", "", "理科"⟩], 2⟩ 5).2⟩

/-! ### Toolbox: scoring -/

theorem assocSet_keys_mem (k v : String) (l : List (String × String)) (x : String) :
    x ∈ (assocSet k v l).map Prod.fst ↔ x = k ∨ x ∈ l.map Prod.fst := by
  induction l with
  | nil => simp [assocSet]
  | cons kv rest ih =>
      rw [assocSet]
      split
      · rename_i hk
        have he : kv.1 = k := by simpa using hk
        simp [he, List.mem_cons]
      · rename_i hk
        simp only [List.map_cons, List.mem_cons, ih]
        tauto

theorem assocSet_keys_nodup {l : List (String × String)} (k v : String)
    (h : (l.map Prod.fst).Nodup) : ((assocSet k v l).map Prod.fst).Nodup := by
  induction l with
  | nil => simp [assocSet]
  | cons kv rest ih =>
      rw [assocSet]
      split
      · rename_i hk
        have he : kv.1 = k := by simpa using hk
        simp only [List.map_cons] at h ⊢
        rw [List.nodup_cons] at h ⊢
        exact ⟨he ▸ h.1, h.2⟩
      · rename_i hk
        have hne : kv.1 ≠ k := by simpa using hk
        simp only [List.map_cons] at h ⊢
        rw [List.nodup_cons] at h ⊢
        refine ⟨?_, ih h.2⟩
        intro hmem
        rcases (assocSet_keys_mem k v rest kv.1).mp hmem with h2 | h2
        · exact hne h2
        · exact h.1 h2

theorem foldl_answers_nodup (parsed : List (String × List String)) :
    ∀ acc : List (String × String), (acc.map Prod.fst).Nodup →
      ((parsed.foldl (fun acc kv =>
        match kv.2 with
        | [] => acc
        | v :: _ =>
            if "question-".data.isPrefixOf kv.1.data then
              assocSet (afterFirstDash kv.1) v acc
            else acc) acc).map Prod.fst).Nodup := by
  induction parsed with
  | nil => exact fun acc h => h
  | cons kv rest ih =>
      intro acc h
      rw [List.foldl_cons]
      rcases kv with ⟨key, vals⟩
      cases vals with
      | nil => exact ih acc h
      | cons v vs =>
          by_cases hp : "question-".data.isPrefixOf key.data
          · simpa [hp] using ih _ (assocSet_keys_nodup (afterFirstDash key) v h)
          · simpa [hp] using ih acc h

theorem extractAnswers_keys_nodup (parsed : List (String × List String)) :
    ((extractAnswers parsed).map Prod.fst).Nodup :=
  foldl_answers_nodup parsed [] (by simp)

theorem length_filter_and_comm (l : List Question) (p q : Question → Bool) :
    (l.filter (fun a => p a && q a)).length = (l.filter (fun a => q a && p a)).length := by
  rw [List.filter_congr (fun a _ => Bool.and_comm (p a) (q a))]

theorem length_filter_keys (keys : List String) (store : List Question)
    (p : Question → Bool) (hk : keys.Nodup)
    (hs : (store.map (fun q => toString q.id)).Nodup) :
    (store.filter (fun q => keys.contains (toString q.id) && p q)).length =
      (keys.filter (fun k => store.any (fun q => toString q.id == k && p q))).length := by
  have hn1 : ((store.filter (fun q => keys.contains (toString q.id) && p q)).map
      (fun q => toString q.id)).Nodup :=
    ((List.filter_sublist store).map (fun q => toString q.id)).nodup hs
  have hn2 : (keys.filter (fun k => store.any (fun q => toString q.id == k && p q))).Nodup :=
    hk.filter _
  have hperm : ((store.filter (fun q => keys.contains (toString q.id) && p q)).map
      (fun q => toString q.id)).Perm
      (keys.filter (fun k => store.any (fun q => toString q.id == k && p q))) := by
    apply (List.perm_ext_iff_of_nodup hn1 hn2).mpr
    intro x
    constructor
    · intro hx
      obtain ⟨q, hq, hqx⟩ := List.mem_map.mp hx
      obtain ⟨hqs, hqf⟩ := List.mem_filter.mp hq
      rw [Bool.and_eq_true] at hqf
      obtain ⟨hcont, hpq⟩ := hqf
      have hxk : x ∈ keys := by
        have hmem : toString q.id ∈ keys := by simpa using hcont
        rwa [hqx] at hmem
      apply List.mem_filter.mpr
      refine ⟨hxk, List.any_eq_true.mpr ⟨q, hqs, ?_⟩⟩
      rw [Bool.and_eq_true, beq_iff_eq]
      exact ⟨hqx, hpq⟩
    · intro hx
      obtain ⟨hxk, hany⟩ := List.mem_filter.mp hx
      obtain ⟨q, hqs, hqf⟩ := List.any_eq_true.mp hany
      rw [Bool.and_eq_true] at hqf
      obtain ⟨hqx, hpq⟩ := hqf
      have hqx' : toString q.id = x := beq_iff_eq.mp hqx
      apply List.mem_map.mpr
      refine ⟨q, List.mem_filter.mpr ⟨hqs, ?_⟩, hqx'⟩
      rw [Bool.and_eq_true]
      refine ⟨by simpa using hqx' ▸ hxk, hpq⟩
  have := hperm.length_eq
  simpa using this

theorem submit_quiz_results (store : List Question) (parsed : List (String × List String))
    (h : extractAnswers parsed ≠ []) :
    submit_quiz store parsed = .results
      (store.filter
        (fun q => ((extractAnswers parsed).map Prod.fst).contains (toString q.id))).length
      ((store.filter
          (fun q => ((extractAnswers parsed).map Prod.fst).contains (toString q.id))).filter
        (fun q =>
          lookupA (extractAnswers parsed) (toString q.id) == some q.correct_option)).length
      (if 0 < (store.filter
          (fun q => ((extractAnswers parsed).map Prod.fst).contains (toString q.id))).length
       then
        round2
          ((((store.filter
              (fun q => ((extractAnswers parsed).map Prod.fst).contains (toString q.id))).filter
            (fun q =>
              lookupA (extractAnswers parsed) (toString q.id) ==
                some q.correct_option)).length : ℚ) /
            ((store.filter
              (fun q =>
                ((extractAnswers parsed).map Prod.fst).contains (toString q.id))).length : ℚ) *
            100)
       else 0) := by
  simp only [submit_quiz, if_neg h]

/-! ### Claims C1 and C5 -/

/-- Claim C1: every quiz submission that is actually graded reports
`0 ≤ correct ≤ total`, and a score equal to
`round(correct / total * 100, 2)` when `total > 0` and `0` when
`total = 0`. -/
theorem eju_C1 (store : List Question) (parsed : List (String × List String))
    (h : extractAnswers parsed ≠ []) :
    ∃ total correct score,
      submit_quiz store parsed = .results total correct score ∧
      correct ≤ total ∧
      score = (if 0 < total then round2 ((correct : ℚ) / (total : ℚ) * 100) else 0) :=
  ⟨_, _, _, submit_quiz_results store parsed h, List.length_filter_le _ _, rfl⟩

/-- Witness for C1 grading the design document's scenario question. -/
theorem eju_C1_witness :
    extractAnswers [("question-7", ["B"])] ≠ [] ∧
    (∃ total correct score,
      submit_quiz [(⟨7, "2+2=?", "3", "4", "5", "6", "B", "数学/代数", "理科"⟩ : Question)]
          [("question-7", ["B"])] = .results total correct score ∧
      correct ≤ total ∧
      score = (if 0 < total then round2 ((correct : ℚ) / (total : ℚ) * 100) else 0)) :=
  ⟨by decide,
   eju_C1 [(⟨7, "2+2=?", "3", "4", "5", "6", "B", "数学/代数", "理科"⟩ : Question)]
     [("question-7", ["B"])] (by decide)⟩

/-- Claim C5: for a non-empty submission, `total` counts the submitted
question ids that exist in the store (not the submitted answers), and
a submitted id with no stored question is excluded from both `total`
and `correct`. -/
theorem eju_C5 (store : List Question) (parsed : List (String × List String))
    (hs : (store.map (fun q => toString q.id)).Nodup)
    (h : extractAnswers parsed ≠ []) :
    ∃ total correct score,
      submit_quiz store parsed = .results total correct score ∧
      total = (((extractAnswers parsed).map Prod.fst).filter
          (fun k => store.any (fun q => toString q.id == k))).length ∧
      correct = (((extractAnswers parsed).map Prod.fst).filter
          (fun k => store.any (fun q => toString q.id == k &&
            lookupA (extractAnswers parsed) (toString q.id) ==
              some q.correct_option))).length := by
  have hkeys : ((extractAnswers parsed).map Prod.fst).Nodup :=
    extractAnswers_keys_nodup parsed
  refine ⟨_, _, _, submit_quiz_results store parsed h, ?_, ?_⟩
  · have htot := length_filter_keys ((extractAnswers parsed).map Prod.fst) store
      (fun _ => true) hkeys hs
    simpa [Bool.and_true] using htot
  · have hcor := length_filter_keys ((extractAnswers parsed).map Prod.fst) store
      (fun q => lookupA (extractAnswers parsed) (toString q.id) == some q.correct_option)
      hkeys hs
    have hgoal : store.filter (fun a =>
        (lookupA (extractAnswers parsed) (toString a.id) == some a.correct_option) &&
          ((extractAnswers parsed).map Prod.fst).contains (toString a.id)) =
        store.filter (fun a =>
          ((extractAnswers parsed).map Prod.fst).contains (toString a.id) &&
            (lookupA (extractAnswers parsed) (toString a.id) == some a.correct_option)) :=
      List.filter_congr (fun a _ => Bool.and_comm _ _)
    simp only [List.filter_filter]
    rw [hgoal]
    simpa using hcor

/-- Witness for C5: a submission naming one existing and one absent id
is graded over the single located question only. -/
theorem eju_C5_witness :
    ([(⟨7, "2+2=?", "3", "4", "5", "6", "B", "数学/代数", "理科"⟩ : Question)].map
        (fun q => toString q.id)).Nodup ∧
    extractAnswers [("question-7", ["B"]), ("question-999", ["A"])] ≠ [] ∧
    (∃ total correct score,
      submit_quiz [(⟨7, "2+2=?", "3", "4", "5", "6", "B", "数学/代数", "理科"⟩ : Question)]
          [("question-7", ["B"]), ("question-999", ["A"])] =
        .results total correct score ∧
      total = (((extractAnswers
          [("question-7", ["B"]), ("question-999", ["A"])]).map Prod.fst).filter
          (fun k => [(⟨7, "2+2=?", "3", "4", "5", "6", "B", "数学/代数", "理科"⟩ : Question)].any
            (fun q => toString q.id == k))).length ∧
      correct = (((extractAnswers
          [("question-7", ["B"]), ("question-999", ["A"])]).map Prod.fst).filter
          (fun k => [(⟨7, "2+2=?", "3", "4", "5", "6", "B", "数学/代数", "理科"⟩ : Question)].any
            (fun q => toString q.id == k &&
              lookupA (extractAnswers [("question-7", ["B"]), ("question-999", ["A"])])
                  (toString q.id) == some q.correct_option))).length) :=
  ⟨by decide, by decide,
   eju_C5 [(⟨7, "2+2=?", "3", "4", "5", "6", "B", "数学/代数", "理科"⟩ : Question)]
     [("question-7", ["B"]), ("question-999", ["A"])] (by decide) (by decide)⟩

/-! ### Toolbox: `LIKE` matching -/

theorem likeMatch_cons (c : Char) (ps s : List Char) :
    likeMatch (c :: ps) s =
      if c = '%' then s.tails.any (fun t => likeMatch ps t)
      else
        match s with
        | [] => false
        | d :: cs => (c == '_' || c == d) && likeMatch ps cs := by
  rw [likeMatch.eq_def]

theorem likeMatch_percent (ps s : List Char) :
    likeMatch ('%' :: ps) s = true ↔ ∃ t, t <:+ s ∧ likeMatch ps t = true := by
  rw [likeMatch_cons, if_pos rfl]
  simp [List.any_eq_true, List.mem_tails]

theorem likeMatch_percent_nil (s : List Char) : likeMatch ['%'] s = true :=
  (likeMatch_percent [] s).mpr ⟨[], List.nil_suffix, rfl⟩

theorem likeMatch_lit_append (ps : List Char) :
    ∀ f : List Char, '%' ∉ f → '_' ∉ f → ∀ s : List Char,
    (likeMatch (f ++ ps) s = true ↔ ∃ s', s = f ++ s' ∧ likeMatch ps s' = true) := by
  intro f
  induction f with
  | nil =>
      intro _ _ s
      simp
  | cons c f' ih =>
      intro hpc hus s
      have hc1 : c ≠ '%' := fun h => hpc (h ▸ List.mem_cons_self c f')
      have hc2 : c ≠ '_' := fun h => hus (h ▸ List.mem_cons_self c f')
      have hpc' : '%' ∉ f' := fun h => hpc (List.mem_cons_of_mem c h)
      have hus' : '_' ∉ f' := fun h => hus (List.mem_cons_of_mem c h)
      cases s with
      | nil =>
          rw [List.cons_append, likeMatch_cons, if_neg hc1]
          simp
      | cons d cs =>
          rw [List.cons_append, likeMatch_cons, if_neg hc1]
          constructor
          · intro hm
            rw [Bool.and_eq_true, Bool.or_eq_true] at hm
            obtain ⟨hcd, hrest⟩ := hm
            have hcd' : c = d := by
              rcases hcd with h | h
              · exact absurd (beq_iff_eq.mp h) hc2
              · exact beq_iff_eq.mp h
            obtain ⟨s', hs', hm'⟩ := (ih hpc' hus' cs).mp hrest
            exact ⟨s', by rw [hs', hcd', List.cons_append], hm'⟩
          · rintro ⟨s', hs', hm'⟩
            rw [List.cons_append] at hs'
            injection hs' with h1 h2
            rw [Bool.and_eq_true, Bool.or_eq_true]
            refine ⟨Or.inr (beq_iff_eq.mpr h1.symm), ?_⟩
            exact (ih hpc' hus' cs).mpr ⟨s', h2, hm'⟩

theorem likeMatch_infix_iff {f : List Char} (hpc : '%' ∉ f) (hus : '_' ∉ f)
    (s : List Char) :
    (likeMatch ('%' :: (f ++ ['%'])) s = true ↔ f <:+: s) := by
  rw [likeMatch_percent]
  constructor
  · rintro ⟨t, hts, hm⟩
    obtain ⟨s', hs', _⟩ := (likeMatch_lit_append ['%'] f hpc hus t).mp hm
    exact List.infix_iff_prefix_suffix.mpr ⟨t, ⟨s', hs'.symm⟩, hts⟩
  · intro hinf
    obtain ⟨t, htp, hts⟩ := List.infix_iff_prefix_suffix.mp hinf
    obtain ⟨s', hs'⟩ := htp
    exact ⟨t, hts,
      (likeMatch_lit_append ['%'] f hpc hus t).mpr
        ⟨s', hs'.symm, likeMatch_percent_nil s'⟩⟩

theorem char_toLower_eq_low {c tc : Char} (ht : tc.toNat < 97)
    (h : Char.toLower c = tc) : c = tc := by
  revert h
  show (let n := c.toNat; if n ≥ 65 ∧ n ≤ 90 then Char.ofNat (n + 32) else c) = tc → c = tc
  by_cases hr : c.toNat ≥ 65 ∧ c.toNat ≤ 90
  · intro hc
    rw [if_pos hr] at hc
    exfalso
    have hval : (c.toNat + 32).isValidChar := Or.inl (by omega)
    have h2 : (Char.ofNat (c.toNat + 32)).toNat = c.toNat + 32 := by
      rw [Char.ofNat, dif_pos hval]
      simp [Char.ofNatAux, Char.toNat, UInt32.toNat, BitVec.toNat_ofNatLt]
    rw [hc] at h2
    omega
  · intro hc
    rwa [if_neg hr] at hc

theorem mem_sqlLower_low {t : String} {c : Char} (hc : c.toNat < 97)
    (h : c ∈ (sqlLower t).data) : c ∈ t.data := by
  obtain ⟨d, hd, hdc⟩ := List.mem_map.mp h
  rwa [← char_toLower_eq_low hc hdc]

theorem sqlLower_pattern (t : String) :
    (sqlLower ("%" ++ t ++ "%")).data = '%' :: ((sqlLower t).data ++ ['%']) := by
  have h1 : Char.toLower '%' = '%' := by decide
  simp [sqlLower, String.data_append, h1]

/-! ### Toolbox: the quiz listing -/

theorem mem_insertById (x : Question) (l : List Question) (q : Question) :
    q ∈ insertById x l ↔ q = x ∨ q ∈ l := by
  induction l with
  | nil => simp [insertById]
  | cons y ys ih =>
      rw [insertById]
      split
      · simp only [List.mem_cons, ih]
        tauto
      · simp [List.mem_cons]

theorem mem_sortById (l : List Question) (q : Question) :
    q ∈ sortById l ↔ q ∈ l := by
  induction l with
  | nil => simp [sortById]
  | cons x xs ih =>
      have h : sortById (x :: xs) = insertById x (sortById xs) := rfl
      rw [h, mem_insertById]
      simp [List.mem_cons, ih]

theorem mem_quiz_list (store : List Question) (tag sect search : String) (q : Question) :
    q ∈ quiz_list store tag sect search ↔
      q ∈ store ∧ questionMatches (strip sect) (strip tag) (strip search) q = true := by
  rw [quiz_list, mem_sortById]
  simp [List.mem_filter]

theorem strip_empty : strip "" = "" := rfl

theorem questionMatches_trivial (q : Question) : questionMatches "" "" "" q = true := by
  simp [questionMatches]

theorem likeSql_infix {f : String} (hp : '%' ∉ f.data) (hu : '_' ∉ f.data)
    {hay : String} (h : likeSql ("%" ++ f ++ "%") hay = true) : containsCI f hay := by
  have hp' : '%' ∉ (sqlLower f).data := fun hmem => hp (mem_sqlLower_low (by decide) hmem)
  have hu' : '_' ∉ (sqlLower f).data := fun hmem => hu (mem_sqlLower_low (by decide) hmem)
  rw [likeSql, sqlLower_pattern] at h
  exact (likeMatch_infix_iff hp' hu' (sqlLower hay).data).mp h

/-! ### Claim C4 -/

/-- Counterexample to claim C4 as stated: the tag filter `"a%b"` is a
non-blank filter string whose `%` acts as a `LIKE` wildcard, so the
question with tags `"acb"` is returned although its tags field does not
contain the literal filter string as a case-insensitive substring. -/
theorem eju_C4_counterexample :
    strip "a%b" ≠ "" ∧
    (⟨1, "q", "o1", "o2", "o3", "o4", "A", "acb", "s"⟩ : Question) ∈
      quiz_list [(⟨1, "q", "o1", "o2", "o3", "o4", "A", "acb", "s"⟩ : Question)]
        "a%b" "" "" ∧
    ¬ containsCI "a%b" "acb" := by
  refine ⟨by decide, ?_, by decide⟩
  decide

/-- Claim C4 as amended: for every non-blank tag filter containing no
SQL `LIKE` wildcard characters (`%`, `_`), the tag-filtered question
list is a subset of the unfiltered question list, and every record it
returns has a tags field containing the filter string as a
case-insensitive substring.  (The subset half needs no wildcard
hypothesis; the substring half fails for wildcard filters, as the
counterexample shows.) -/
theorem eju_C4 (store : List Question) (tag : String)
    (htag : strip tag ≠ "")
    (hp : '%' ∉ (strip tag).data) (hu : '_' ∉ (strip tag).data) :
    (∀ q ∈ quiz_list store tag "" "", q ∈ quiz_list store "" "" "") ∧
    (∀ q ∈ quiz_list store tag "" "", containsCI (strip tag) q.tags) := by
  constructor
  · intro q hq
    obtain ⟨hqs, _⟩ := (mem_quiz_list store tag "" "" q).mp hq
    exact (mem_quiz_list store "" "" "" q).mpr
      ⟨hqs, by rw [strip_empty]; exact questionMatches_trivial q⟩
  · intro q hq
    obtain ⟨_, hm⟩ := (mem_quiz_list store tag "" "" q).mp hq
    rw [questionMatches, strip_empty] at hm
    rw [Bool.and_eq_true, Bool.and_eq_true] at hm
    obtain ⟨⟨_, htagc⟩, _⟩ := hm
    rw [Bool.or_eq_true] at htagc
    rcases htagc with h | h
    · exact absurd (beq_iff_eq.mp h) htag
    · exact likeSql_infix hp hu h

/-- Witness for the amended C4 at a concrete store and a plain
(wildcard-free) filter. -/
theorem eju_C4_witness :
    strip "math" ≠ "" ∧ '%' ∉ (strip "math").data ∧ '_' ∉ (strip "math").data ∧
    ((∀ q ∈ quiz_list [(⟨3, "q3", "o1", "o2", "o3", "o4", "B", "Math/Algebra", "s"⟩ :
          Question)] "math" "" "",
        q ∈ quiz_list [(⟨3, "q3", "o1", "o2", "o3", "o4", "B", "Math/Algebra", "s"⟩ :
          Question)] "" "" "") ∧
      (∀ q ∈ quiz_list [(⟨3, "q3", "o1", "o2", "o3", "o4", "B", "Math/Algebra", "s"⟩ :
          Question)] "math" "" "",
        containsCI (strip "math") q.tags)) :=
  ⟨by decide, by decide, by decide,
   eju_C4 [(⟨3, "q3", "o1", "o2", "o3", "o4", "B", "Math/Algebra", "s"⟩ : Question)]
     "math" (by decide) (by decide) (by decide)⟩

/-! ### Claim C2 -/

theorem ite_errors_ne_nil (c1 c2 c3 c4 : Prop)
    [Decidable c1] [Decidable c2] [Decidable c3] [Decidable c4]
    (m1 m2 m3 m4 : String) :
    ((if c1 then [m1] else []) ++ (if c2 then [m2] else []) ++
      (if c3 then [m3] else []) ++ (if c4 then [m4] else []) ≠ []) ↔
      (c1 ∨ c2 ∨ c3 ∨ c4) := by
  by_cases h1 : c1 <;> by_cases h2 : c2 <;> by_cases h3 : c3 <;> by_cases h4 : c4 <;>
    simp [h1, h2, h3, h4]

theorem validate_errors_iff (data : List (String × String)) :
    (validate_question_payload data).1 ≠ [] ↔
      (strip (getD data "question") = "" ∨
       (strip (getD data "option_a") = "" ∨ strip (getD data "option_b") = "" ∨
        strip (getD data "option_c") = "" ∨ strip (getD data "option_d") = "") ∨
       upper (strip (getD data "correct_option")) ∉ correctOptionChoices ∨
       strip (getD data "section") = "") := by
  exact ite_errors_ne_nil _ _ _ _ _ _ _ _

/-- Claim C2: a create or update form payload is rejected exactly when
the question text is blank after trimming, or one of the four options
is blank after trimming, or the trimmed-and-uppercased correct option
is not one of A/B/C/D, or the section is blank after trimming; on
rejection neither handler changes the store and both re-render the form
with the non-2xx status 400, and otherwise the create handler inserts a
row. -/
theorem eju_C2 (store : Store) (qid : Nat) (parsed : List (String × List String)) :
    ((validate_question_payload (parse_form_body parsed)).1 ≠ [] ↔
      (strip (getD (parse_form_body parsed) "question") = "" ∨
       (strip (getD (parse_form_body parsed) "option_a") = "" ∨
        strip (getD (parse_form_body parsed) "option_b") = "" ∨
        strip (getD (parse_form_body parsed) "option_c") = "" ∨
        strip (getD (parse_form_body parsed) "option_d") = "") ∨
       upper (strip (getD (parse_form_body parsed) "correct_option")) ∉
         correctOptionChoices ∨
       strip (getD (parse_form_body parsed) "section") = "")) ∧
    ((validate_question_payload (parse_form_body parsed)).1 ≠ [] →
      add_question_post store parsed = (store, .page "add_edit.html" 400) ∧
      edit_question_post store qid parsed = (store, .page "add_edit.html" 400)) ∧
    ((validate_question_payload (parse_form_body parsed)).1 = [] →
      ∃ q, (add_question_post store parsed).1.rows = store.rows ++ [q]) := by
  refine ⟨validate_errors_iff (parse_form_body parsed), ?_, ?_⟩
  · intro h
    constructor
    · simp only [add_question_post]
      rw [if_neg h]
    · simp only [edit_question_post]
      rw [if_neg h]
  · intro h
    simp only [add_question_post]
    rw [if_pos h]
    exact ⟨_, rfl⟩

/-- Witness for C2: the design document's scenario of a create with a
blank `option_c` is rejected with status 400 and no inserted row. -/
theorem eju_C2_witness :
    add_question_post ⟨[], 1⟩
        [("question", ["Q"]), ("option_a", ["1"]), ("option_b", ["2"]),
         ("option_c", ["  "]), ("option_d", ["4"]), ("correct_option", ["a"]),
         ("section", ["理科"]), ("tags", ["x"])] =
      (⟨[], 1⟩, .page "add_edit.html" 400) :=
  ((eju_C2 ⟨[], 1⟩ 1
      [("question", ["Q"]), ("option_a", ["1"]), ("option_b", ["2"]),
       ("option_c", ["  "]), ("option_d", ["4"]), ("correct_option", ["a"]),
       ("section", ["理科"]), ("tags", ["x"])]).2.1 (by decide)).1

/-! ### Claim C3 -/

theorem find_parse_form_body (parsed : List (String × List String)) (k : String) :
    (parse_form_body parsed).find? (fun kv => kv.1 == k) =
      (parsed.find? (fun kv => kv.1 == k)).map
        (fun kv => (kv.1,
          match kv.2 with
          | [] => ""
          | v :: _ => strip v)) := by
  induction parsed with
  | nil => rfl
  | cons kv rest ih =>
      rw [parse_form_body, List.map_cons]
      rcases hk : (kv.1 == k) with _ | _
      · rw [List.find?_cons_of_neg _ (by simpa using hk),
          List.find?_cons_of_neg _ (by simpa using hk)]
        exact ih
      · rw [List.find?_cons_of_pos _ (by simpa using hk),
          List.find?_cons_of_pos _ (by simpa using hk)]
        rfl

theorem getD_tags_of_find {parsed : List (String × List String)}
    {rawTags : String} {rest : List String}
    (htags : parsed.find? (fun kv => kv.1 == "tags") = some ("tags", rawTags :: rest)) :
    getD (parse_form_body parsed) "tags" = strip rawTags := by
  rw [getD, find_parse_form_body, htags]
  rfl

theorem payload_tags_eq {parsed : List (String × List String)}
    {rawTags : String} {rest : List String}
    (htags : parsed.find? (fun kv => kv.1 == "tags") = some ("tags", rawTags :: rest)) :
    (validate_question_payload (parse_form_body parsed)).2.tags =
      normalize_tags_string rawTags := by
  have h1 : (validate_question_payload (parse_form_body parsed)).2.tags =
      normalize_tags_string (getD (parse_form_body parsed) "tags") := rfl
  rw [h1, getD_tags_of_find htags, normalize_tags_string_strip]

/-- Claim C3: on a successful create, the inserted row's tags value is
the normalized form of the submitted raw tags string and reading the
record back by its fresh id yields it; on a successful update, every
row stored under the edited id carries the same normalized tags
value. -/
theorem eju_C3 (store : Store) (qid : Nat) (parsed : List (String × List String))
    (rawTags : String) (rest : List String)
    (htags : parsed.find? (fun kv => kv.1 == "tags") = some ("tags", rawTags :: rest))
    (hvalid : (validate_question_payload (parse_form_body parsed)).1 = [])
    (hid : ∀ q ∈ store.rows, q.id < store.nextId) :
    (∃ q, (add_question_post store parsed).1.rows = store.rows ++ [q] ∧
      q.tags = normalize_tags_string rawTags ∧
      get_question (add_question_post store parsed).1 store.nextId = some q) ∧
    (∀ q ∈ (edit_question_post store qid parsed).1.rows, q.id = qid →
      q.tags = normalize_tags_string rawTags) := by
  have htagsEq := payload_tags_eq htags
  obtain ⟨P, hP⟩ : ∃ P, validate_question_payload (parse_form_body parsed) = P := ⟨_, rfl⟩
  rw [hP] at hvalid htagsEq
  constructor
  · refine ⟨{ id := store.nextId, question := P.2.question, option_a := P.2.option_a,
               option_b := P.2.option_b, option_c := P.2.option_c,
               option_d := P.2.option_d, correct_option := P.2.correct_option,
               tags := P.2.tags, sect := P.2.sect },
      ?_, ?_, ?_⟩
    · simp only [add_question_post]
      rw [hP, if_pos hvalid]
    · exact htagsEq
    · simp only [add_question_post]
      rw [hP, if_pos hvalid, get_question]
      have hnone : store.rows.find? (fun q => q.id == store.nextId) = none := by
        apply List.find?_eq_none.mpr
        intro q hq
        simp only [beq_iff_eq]
        exact Nat.ne_of_lt (hid q hq)
      rw [List.find?_append, hnone]
      simp
  · intro q hq hqid
    simp only [edit_question_post] at hq
    rw [hP, if_pos hvalid] at hq
    obtain ⟨r, hr, hrq⟩ := List.mem_map.mp hq
    by_cases hrid : r.id = qid
    · rw [if_pos (beq_iff_eq.mpr hrid)] at hrq
      rw [← hrq]
      exact htagsEq
    · rw [if_neg (by simpa using hrid)] at hrq
      rw [← hrq] at hqid
      exact absurd hqid hrid

/-- Witness for C3: a concrete valid create whose raw tags string has
duplicates and stray whitespace is stored in normalized form and reads
back normalized. -/
theorem eju_C3_witness :
    ([(("tags" : String), ["Math , 数学,Math"])].find?
        (fun kv => kv.1 == "tags") = some ("tags", ["Math , 数学,Math"])) ∧
    (∃ q, (add_question_post ⟨[], 1⟩
        [("question", ["Q"]), ("option_a", ["1"]), ("option_b", ["2"]),
         ("option_c", ["3"]), ("option_d", ["4"]), ("correct_option", ["b"]),
         ("section", ["理科"]), ("tags", ["Math , 数学,Math"])]).1.rows =
        ([] : List Question) ++ [q] ∧
      q.tags = normalize_tags_string "Math , 数学,Math" ∧
      get_question (add_question_post ⟨[], 1⟩
        [("question", ["Q"]), ("option_a", ["1"]), ("option_b", ["2"]),
         ("option_c", ["3"]), ("option_d", ["4"]), ("correct_option", ["b"]),
         ("section", ["理科"]), ("tags", ["Math , 数学,Math"])]).1 1 = some q) :=
  ⟨by decide,
   (eju_C3 ⟨[], 1⟩ 1
      [("question", ["Q"]), ("option_a", ["1"]), ("option_b", ["2"]),
       ("option_c", ["3"]), ("option_d", ["4"]), ("correct_option", ["b"]),
       ("section", ["理科"]), ("tags", ["Math , 数学,Math"])]
      "Math , 数学,Math" [] (by decide) (by decide) (by decide)).1⟩

/-! ### Toolbox: the tag tree -/

theorem mem_insertSortedKV (x : String × TagTree) (l : List (String × TagTree))
    (y : String × TagTree) : y ∈ insertSortedKV x l ↔ y = x ∨ y ∈ l := by
  induction l with
  | nil => simp [insertSortedKV]
  | cons z zs ih =>
      rw [insertSortedKV]
      split
      · simp only [List.mem_cons, ih]
        tauto
      · simp [List.mem_cons]

theorem mem_sortKV (l : List (String × TagTree)) (y : String × TagTree) :
    y ∈ sortKV l ↔ y ∈ l := by
  induction l with
  | nil => simp [sortKV]
  | cons x xs ih =>
      have h : sortKV (x :: xs) = insertSortedKV x (sortKV xs) := rfl
      rw [h, mem_insertSortedKV]
      simp [List.mem_cons, ih]

theorem tagParts_facts {tag p : String} (hp : p ∈ tagParts tag) :
    p ≠ "" ∧ '/' ∉ p.data := by
  rw [tagParts] at hp
  obtain ⟨q, hq, hqp⟩ := List.mem_map.mp hp
  obtain ⟨hqmem, hqne⟩ := List.mem_filter.mp hq
  obtain ⟨r, hr, hrq⟩ := List.mem_map.mp hqmem
  constructor
  · exact hqp ▸ mk_ne_empty (by simpa using hqne)
  · rw [← hqp]
    intro hmem
    exact piece_no_sep hr (pyStrip_subset r (hrq ▸ hmem))

theorem wf_empty : TagTree.WF (.node []) := .node (by simp) (by simp)

theorem getChild_wf {cs : List (String × TagTree)} {k : String}
    (h : TagTree.WF (.node cs)) : TagTree.WF (getChild cs k) := by
  cases h with
  | node hkey hrec =>
      rcases hfind : cs.find? (fun kv => kv.1 == k) with _ | kv
      · rw [getChild, hfind]
        exact wf_empty
      · rw [getChild, hfind]
        exact hrec kv (List.mem_of_find?_eq_some hfind)

theorem setChild_mem {cs : List (String × TagTree)} {k : String} {t : TagTree}
    {kv : String × TagTree} (h : kv ∈ setChild cs k t) : kv ∈ cs ∨ kv = (k, t) := by
  induction cs with
  | nil => exact Or.inr (by simpa [setChild] using h)
  | cons c rest ih =>
      rw [setChild] at h
      split at h
      · rcases List.mem_cons.mp h with h1 | h1
        · exact Or.inr h1
        · exact Or.inl (List.mem_cons_of_mem c h1)
      · rcases List.mem_cons.mp h with h1 | h1
        · exact Or.inl (h1 ▸ List.mem_cons_self c rest)
        · rcases ih h1 with h2 | h2
          · exact Or.inl (List.mem_cons_of_mem c h2)
          · exact Or.inr h2

theorem insertPath_wf : ∀ (ps : List String) (t : TagTree),
    (∀ p ∈ ps, p ≠ "" ∧ '/' ∉ p.data) → TagTree.WF t →
    TagTree.WF (insertPath ps t) := by
  intro ps
  induction ps with
  | nil => exact fun t _ h => h
  | cons p ps' ih =>
      intro t hps hwf
      cases t with
      | node cs =>
          rw [insertPath]
          have hchild : TagTree.WF (insertPath ps' (getChild cs p)) :=
            ih _ (fun x hx => hps x (List.mem_cons_of_mem p hx)) (getChild_wf hwf)
          cases hwf with
          | node hkey hrec =>
              refine .node ?_ ?_
              · intro kv hkv
                rcases setChild_mem hkv with h1 | h1
                · exact hkey kv h1
                · rw [h1]
                  exact hps p (List.mem_cons_self p ps')
              · intro kv hkv
                rcases setChild_mem hkv with h1 | h1
                · exact hrec kv h1
                · rw [h1]
                  exact hchild

theorem build_tag_tree_wf_aux : ∀ (tags : List String) (tr : TagTree),
    TagTree.WF tr →
    TagTree.WF (tags.foldl (fun tr tag => insertPath (tagParts tag) tr) tr) := by
  intro tags
  induction tags with
  | nil => exact fun tr h => h
  | cons tag rest ih =>
      intro tr h
      rw [List.foldl_cons]
      exact ih _ (insertPath_wf _ _ (fun p hp => tagParts_facts hp) h)

theorem build_tag_tree_wf (tags : List String) : TagTree.WF (build_tag_tree tags) :=
  build_tag_tree_wf_aux tags _ wf_empty

theorem walkFuel_succ (fuel : Nat) (cs : List (String × TagTree))
    (pre : String) (level : Nat) :
    walkFuel (fuel + 1) (.node cs) pre level =
      (sortKV cs).flatMap (fun kv =>
        { value := if pre = "" then kv.1 else pre ++ "/" ++ kv.1, label := kv.1,
          level := level } ::
          walkFuel fuel kv.2 (if pre = "" then kv.1 else pre ++ "/" ++ kv.1)
            (level + 1)) := rfl

theorem data_append_slash (pre k : String) :
    (pre ++ "/" ++ k).data = pre.data ++ '/' :: k.data := by
  simp [String.data_append]

theorem lastSeg_no_slash {k : String} (h : '/' ∉ k.data) : lastSeg k = k := by
  rw [lastSeg, pySplit_no_sep h]
  rfl

theorem lastSeg_slash_append {pre k : String} (hk : '/' ∉ k.data) :
    lastSeg (pre ++ "/" ++ k) = k := by
  rw [lastSeg, data_append_slash, pySplit_append_sep, pySplit_no_sep hk,
    List.getLastD_concat]

theorem count_slash_append {pre k : String} (hk : '/' ∉ k.data) :
    ((pre ++ "/" ++ k).data.count '/') = pre.data.count '/' + 1 := by
  rw [data_append_slash, List.count_append, List.count_cons_self,
    List.count_eq_zero.mpr hk]

/-! ### Claim C10 -/

theorem walkFuel_inv : ∀ (fuel : Nat) (t : TagTree) (pre : String) (level : Nat),
    TagTree.WF t →
    ((level = 0 ∧ pre = "") ∨
      (0 < level ∧ pre ≠ "" ∧ pre.data.count '/' = level - 1)) →
    ∀ e ∈ walkFuel fuel t pre level,
      e.level = e.value.data.count '/' ∧ e.label = lastSeg e.value := by
  intro fuel
  induction fuel with
  | zero =>
      intro t pre level _ _ e he
      simp [walkFuel] at he
  | succ f ih =>
      intro t pre level hwf hpre e he
      cases t with
      | node cs =>
          rw [walkFuel_succ, List.mem_flatMap] at he
          obtain ⟨kv, hkv, hee⟩ := he
          have hkvcs : kv ∈ cs := (mem_sortKV cs kv).mp hkv
          cases hwf with
          | node hkey hrec =>
              obtain ⟨hkne, hkns⟩ := hkey kv hkvcs
              have hvfacts :
                  (if pre = "" then kv.1 else pre ++ "/" ++ kv.1).data.count '/' = level ∧
                  lastSeg (if pre = "" then kv.1 else pre ++ "/" ++ kv.1) = kv.1 ∧
                  (if pre = "" then kv.1 else pre ++ "/" ++ kv.1) ≠ "" := by
                rcases hpre with ⟨hl0, hpre0⟩ | ⟨hlpos, hprene, hcount⟩
                · subst hpre0
                  rw [if_pos rfl, hl0]
                  exact ⟨List.count_eq_zero.mpr hkns, lastSeg_no_slash hkns, hkne⟩
                · rw [if_neg hprene]
                  refine ⟨?_, lastSeg_slash_append hkns, ?_⟩
                  · rw [count_slash_append hkns, hcount]
                    omega
                  · intro hcon
                    have hdata := congrArg String.data hcon
                    rw [data_append_slash] at hdata
                    simp at hdata
              rcases List.mem_cons.mp hee with he1 | he2
              · rw [he1]
                exact ⟨hvfacts.1.symm, hvfacts.2.1.symm⟩
              · refine ih kv.2 _ (level + 1) (hrec kv hkvcs) ?_ e he2
                right
                refine ⟨Nat.succ_pos level, hvfacts.2.2, ?_⟩
                rw [hvfacts.1]
                omega

/-- Claim C10: every entry produced by `build_tag_options` has a level
equal to the number of `/` characters in its value and a label equal to
the final `/`-segment of its value. -/
theorem eju_C10 (tags : List String) :
    ∀ e ∈ build_tag_options tags,
      e.level = e.value.data.count '/' ∧ e.label = lastSeg e.value :=
  walkFuel_inv (buildFuel tags) (build_tag_tree tags) "" 0
    (build_tag_tree_wf tags) (Or.inl ⟨rfl, rfl⟩)

/-- Witness for C10 at a concrete nested option entry. -/
theorem eju_C10_witness :
    (⟨"数学/代数", "代数", 1⟩ : TagOption) ∈ build_tag_options ["数学/代数"] ∧
    ((⟨"数学/代数", "代数", 1⟩ : TagOption).level =
        (⟨"数学/代数", "代数", 1⟩ : TagOption).value.data.count '/' ∧
      (⟨"数学/代数", "代数", 1⟩ : TagOption).label =
        lastSeg (⟨"数学/代数", "代数", 1⟩ : TagOption).value) :=
  ⟨by decide, eju_C10 ["数学/代数"] ⟨"数学/代数", "代数", 1⟩ (by decide)⟩

/-! ### Fuel adequacy of `walkFuel`

The fuel passed by `build_tag_options` strictly exceeds the depth of
the tree, and `walkFuel` is fuel-irrelevant above the depth, so the
fuel-based `walkFuel` computes exactly the unbounded recursive `walk`
of the source. -/

theorem depthLe_mono : ∀ {t : TagTree} {n : Nat}, DepthLe t n →
    ∀ {m : Nat}, n ≤ m → DepthLe t m := by
  intro t n h
  induction h with
  | node hch ih =>
      intro m hm
      obtain ⟨j, rfl⟩ : ∃ j, m = j + 1 := ⟨m - 1, by omega⟩
      exact .node (fun kv hkv => ih kv hkv (by omega))

theorem getChild_depthLe {cs : List (String × TagTree)} {k : String} {n : Nat}
    (h : DepthLe (.node cs) (n + 1)) : DepthLe (getChild cs k) (n + 1) := by
  cases h with
  | node hch =>
      rcases hfind : cs.find? (fun kv => kv.1 == k) with _ | kv
      · rw [getChild, hfind]
        exact .node (by simp)
      · rw [getChild, hfind]
        exact depthLe_mono (hch kv (List.mem_of_find?_eq_some hfind)) (by omega)

theorem insertPath_depthLe : ∀ (ps : List String) (t : TagTree) (n : Nat),
    DepthLe t n → DepthLe (insertPath ps t) (n + ps.length) := by
  intro ps
  induction ps with
  | nil =>
      intro t n h
      simpa using h
  | cons p ps' ih =>
      intro t n h
      cases t with
      | node cs =>
          cases h with
          | node hch =>
              rename_i m
              rw [insertPath]
              have hchild : DepthLe (insertPath ps' (getChild cs p))
                  ((m + 1) + ps'.length) :=
                ih _ _ (getChild_depthLe (.node hch))
              have hlen : m + 1 + (p :: ps').length = (m + ps'.length + 1) + 1 := by
                simp
                omega
              rw [hlen]
              refine .node ?_
              intro kv hkv
              rcases setChild_mem hkv with h1 | h1
              · exact depthLe_mono (hch kv h1) (by omega)
              · rw [h1]
                exact depthLe_mono hchild (by omega)

theorem foldl_depthLe : ∀ (tags : List String) (tr : TagTree) (n : Nat),
    DepthLe tr n →
    DepthLe (tags.foldl (fun tr tag => insertPath (tagParts tag) tr) tr)
      (tags.foldl (fun m tag => m + (tagParts tag).length) n) := by
  intro tags
  induction tags with
  | nil => exact fun tr n h => h
  | cons tag rest ih =>
      intro tr n h
      rw [List.foldl_cons, List.foldl_cons]
      exact ih _ _ (insertPath_depthLe _ _ _ h)

theorem build_tag_tree_depthLe (tags : List String) :
    DepthLe (build_tag_tree tags) (buildFuel tags) :=
  foldl_depthLe tags _ 1 (.node (by simp))

theorem flatMap_congr {α β : Type _} {l : List α} {f g : α → List β}
    (h : ∀ x ∈ l, f x = g x) : l.flatMap f = l.flatMap g := by
  induction l with
  | nil => rfl
  | cons x xs ih =>
      rw [List.flatMap_cons, List.flatMap_cons, h x (List.mem_cons_self x xs),
        ih (fun y hy => h y (List.mem_cons_of_mem x hy))]

theorem walkFuel_stable : ∀ {t : TagTree} {n : Nat}, DepthLe t n →
    ∀ f, n ≤ f → ∀ pre level, walkFuel f t pre level = walkFuel n t pre level := by
  intro t n h
  induction h with
  | node hch ih =>
      rename_i cs m
      intro f hf pre level
      obtain ⟨g, rfl⟩ : ∃ g, f = g + 1 := ⟨f - 1, by omega⟩
      rw [walkFuel_succ, walkFuel_succ]
      apply flatMap_congr
      intro kv hkv
      have hm : kv ∈ cs := (mem_sortKV cs kv).mp hkv
      rw [ih kv hm g (by omega)]

theorem walkFuel_depthLe {t : TagTree} {n : Nat} (h : DepthLe t n)
    {f₁ f₂ : Nat} (h₁ : n ≤ f₁) (h₂ : n ≤ f₂) (pre : String) (level : Nat) :
    walkFuel f₁ t pre level = walkFuel f₂ t pre level :=
  (walkFuel_stable h f₁ h₁ pre level).trans (walkFuel_stable h f₂ h₂ pre level).symm

theorem build_tag_options_fuel (tags : List String) {f : Nat}
    (hf : buildFuel tags ≤ f) :
    build_tag_options tags = walkFuel f (build_tag_tree tags) "" 0 :=
  (walkFuel_depthLe (build_tag_tree_depthLe tags) (le_refl _) hf "" 0)

end EjuApp
